import Mathlib

/-!
Shallow embedding of the zartrad dashboard core and proofs about it.

Sources embedded here:
- the hash-verification decision of fetchAndVerifyByCID (src/dataLoader.js):
  hex encoding, digest normalization and the ok/mode decision order;
- the retrying snapshot loader loadSnapshot (src/history.js);
- the equity-series builder buildEquitySeries (src/history.js): extraction,
  positive-equity filter, last-write-wins date dedup (a JS Map), date sort;
- the analytics engine computePerformance (src/history.js): daily returns,
  the VAMI wealth index, running-peak drawdown with max-drawdown tracking,
  and the summary statistics.

Modelling conventions: JS numbers on the analytics path are embedded as exact
rationals; Math.sqrt and ** on the statistics path are embedded as Real.sqrt
and Real.rpow.  SHA-256 itself (crypto.subtle, an external primitive) is not
re-implemented: digests enter the verifier model as byte lists, and the hex
encoding toHex plus all normalization and comparison logic are embedded from
the source.  The wall-clock year read by computePerformance is passed as an
explicit parameter.  JS String.prototype.toLowerCase and localeCompare are
modelled as per-character lowercasing and code-point order, which agree with
them on the hex digests and ISO dates this program compares.
-/

/-! ## Hex encoding and digest normalization (src/dataLoader.js) -/

/-- Hex digit used by b.toString(16): decimal digits then lowercase a-f. -/
def hexDigitChar (n : Nat) : Char := Nat.digitChar n

/-- Two-character lowercase hex rendering of one byte:
b.toString(16).padStart(2, "0") for b < 256. -/
def byteToHexChars (b : Nat) : List Char :=
  [hexDigitChar (b / 16 % 16), hexDigitChar (b % 16)]

/-- toHex of src/dataLoader.js: Array.from(u8).map(hex of byte).join(""). -/
def toHex (bytes : List Nat) : String :=
  ⟨(bytes.map byteToHexChars).flatten⟩

/-- Model of JS String.prototype.toLowerCase: per-character lowercasing. -/
def jsToLower (s : String) : String :=
  ⟨s.data.map Char.toLower⟩

/-- Model of .replace(applied to the leading literal 0x, "") on an
already-lowercased string: strip one leading "0x" if present. -/
def strip0x (s : String) : String :=
  match s.data with
  | '0' :: 'x' :: rest => ⟨rest⟩
  | _ => s

/-- Line 48 of src/dataLoader.js:
(expectedHex or "").toLowerCase() with the leading 0x stripped. -/
def normalizeExpected (expectedHex : Option String) : String :=
  strip0x (jsToLower (expectedHex.getD ""))

/-- Result record of fetchAndVerifyByCID, minus the payload and url fields
(the decision-relevant fields). -/
structure VerifyResult where
  ok : Bool
  mode : String
  sha256_onchain : Option String
  sha256_expected : Option String
  sha256_file : String
  sha256_canonical : String
deriving DecidableEq, Repr

/-- The ok/mode decision order of fetchAndVerifyByCID (lines 78-87):
expected digest first (authoritative), then embedded-vs-raw, then
embedded-vs-canonical, else no comparison. -/
def verdict (expected fileHash canonicalHash inFile : String) : Bool × String :=
  if expected ≠ "" then (decide (fileHash = expected), "on-chain-file-bytes")
  else if inFile ≠ "" ∧ inFile = fileHash then (true, "file-bytes")
  else if inFile ≠ "" ∧ inFile = canonicalHash then (true, "canonical-minus-sha256")
  else (false, "")

/-- Embedding of the per-payload body of fetchAndVerifyByCID
(src/dataLoader.js lines 48, 63-98) for a successfully fetched payload that
parses as JSON.  The two SHA-256 digests computed by crypto.subtle (over the
raw bytes, and over the canonical serialization without the sha256 field) are
abstracted as the byte lists digest1 and digest2; jsonSha256 is the record's
self-embedded digest field (none when absent). -/
def fetchAndVerifyDecision (expectedHex : Option String) (digest1 digest2 : List Nat)
    (jsonSha256 : Option String) : VerifyResult :=
  let expected := normalizeExpected expectedHex
  let fileHash := jsToLower (toHex digest1)
  let canonicalHash := jsToLower (toHex digest2)
  let inFile := jsToLower (jsonSha256.getD "")
  let vm := verdict expected fileHash canonicalHash inFile
  { ok := vm.1
    mode := vm.2
    sha256_onchain := match expectedHex with
      | some s => if s = "" then none else some s
      | none => none
    sha256_expected := if inFile = "" then none else some inFile
    sha256_file := fileHash
    sha256_canonical := canonicalHash }

theorem charToLower_hexDigitChar (n : Nat) (h : n < 16) :
    Char.toLower (hexDigitChar n) = hexDigitChar n := by
  interval_cases n <;> decide

theorem jsToLower_toHex (bytes : List Nat) : jsToLower (toHex bytes) = toHex bytes := by
  unfold jsToLower toHex
  congr 1
  rw [List.map_flatten, List.map_map]
  congr 1
  apply List.map_congr_left
  intro b _
  show List.map Char.toLower (byteToHexChars b) = byteToHexChars b
  unfold byteToHexChars
  simp only [List.map_cons, List.map_nil]
  rw [charToLower_hexDigitChar _ (Nat.mod_lt _ (by norm_num)),
    charToLower_hexDigitChar _ (Nat.mod_lt _ (by norm_num))]

/-- C1: for a fetched payload that parses as JSON, when a non-null expected
digest is supplied (nonempty once lowercased and 0x-stripped), ok holds iff
the SHA-256 digest of the raw fetched bytes, hex-encoded, equals the
normalized expected digest; the mode is the on-chain-bytes mode; and the
record's self-embedded digest influences neither ok nor mode. -/
theorem onchain_digest_authoritative (expectedHex : String) (d1 d2 : List Nat)
    (emb : Option String) (h : normalizeExpected (some expectedHex) ≠ "") :
    ((fetchAndVerifyDecision (some expectedHex) d1 d2 emb).ok = true ↔
       toHex d1 = normalizeExpected (some expectedHex)) ∧
    (fetchAndVerifyDecision (some expectedHex) d1 d2 emb).mode = "on-chain-file-bytes" ∧
    ∀ emb' : Option String,
      (fetchAndVerifyDecision (some expectedHex) d1 d2 emb').ok =
        (fetchAndVerifyDecision (some expectedHex) d1 d2 emb).ok ∧
      (fetchAndVerifyDecision (some expectedHex) d1 d2 emb').mode =
        (fetchAndVerifyDecision (some expectedHex) d1 d2 emb).mode := by
  refine ⟨?_, ?_, ?_⟩
  · simp only [fetchAndVerifyDecision, verdict, if_pos h, jsToLower_toHex]
    exact decide_eq_true_iff
  · simp only [fetchAndVerifyDecision, verdict, if_pos h]
  · intro emb'
    simp only [fetchAndVerifyDecision, verdict, if_pos h]
    exact ⟨trivial, trivial⟩

theorem onchain_digest_authoritative_witness :
    normalizeExpected (some "0xAB") ≠ "" ∧
    ((fetchAndVerifyDecision (some "0xAB") [171] [0] (some "ff")).ok = true ↔
       toHex [171] = normalizeExpected (some "0xAB")) := by
  refine ⟨by decide, ?_⟩
  exact (onchain_digest_authoritative "0xAB" [171] [0] (some "ff") (by decide)).1

/-- C2 counterexample: the embedded-digest comparison is not 0x-prefix
insensitive.  Here the self-embedded digest "0xAB" denotes the same byte
value (0xab) as the raw digest, i.e. it normalizes to exactly the raw
digest's hex encoding, yet with no expected digest the verifier reports
ok = false and mode NONE instead of a successful embedded-bytes match. -/
theorem embedded_prefix_insensitivity_cex :
    strip0x (jsToLower "0xAB") = toHex [171] ∧
    (fetchAndVerifyDecision none [171] [0] (some "0xAB")).ok = false ∧
    (fetchAndVerifyDecision none [171] [0] (some "0xAB")).mode = "" := by
  refine ⟨by decide, by decide, by decide⟩

/-- C2 (amended): the expected-digest comparison is insensitive to case and
to a leading 0x on the expected operand (its ok/mode depend on the expected
value only through lowercasing plus 0x-stripping), and every comparison is
insensitive to case on the embedded operand; a leading 0x is stripped only
from the expected digest, not from the embedded one. -/
theorem digest_comparison_normalization (d1 d2 : List Nat) (e1 e2 s1 s2 : String)
    (emb : Option String) (eh : Option String) :
    (normalizeExpected (some e1) = normalizeExpected (some e2) →
      (fetchAndVerifyDecision (some e1) d1 d2 emb).ok =
        (fetchAndVerifyDecision (some e2) d1 d2 emb).ok ∧
      (fetchAndVerifyDecision (some e1) d1 d2 emb).mode =
        (fetchAndVerifyDecision (some e2) d1 d2 emb).mode) ∧
    (jsToLower s1 = jsToLower s2 →
      fetchAndVerifyDecision eh d1 d2 (some s1) =
        fetchAndVerifyDecision eh d1 d2 (some s2)) := by
  constructor
  · intro hn
    simp only [fetchAndVerifyDecision]
    rw [hn]
    exact ⟨rfl, rfl⟩
  · intro hs
    simp only [fetchAndVerifyDecision, Option.getD_some]
    rw [hs]

theorem digest_comparison_normalization_witness :
    normalizeExpected (some "0XAB") = normalizeExpected (some "0xab") ∧
    (fetchAndVerifyDecision (some "0XAB") [171] [0] none).ok =
      (fetchAndVerifyDecision (some "0xab") [171] [0] none).ok := by
  refine ⟨by decide, ?_⟩
  exact ((digest_comparison_normalization [171] [0] "0XAB" "0xab" "x" "x" none none).1
    (by decide)).1

/-- C8 counterexample: a verification result with ok = false whose mode is
not NONE: an expected digest was supplied and mismatched, and the verifier
reports the on-chain-bytes mode for the failed comparison. -/
theorem mode_none_on_failure_cex :
    (fetchAndVerifyDecision (some "aa") [0] [0] none).ok = false ∧
    (fetchAndVerifyDecision (some "aa") [0] [0] none).mode = "on-chain-file-bytes" ∧
    "on-chain-file-bytes" ≠ "" := by
  refine ⟨by decide, by decide, by decide⟩

/-- C8 (amended): the mode field records which comparison was decisive.
When an expected digest is supplied the mode is always the on-chain-bytes
mode, even when the comparison failed (ok = false); when no expected digest
is supplied, ok = false holds exactly when the mode is NONE, and an embedded
mode is reported only when the corresponding embedded comparison matched. -/
theorem mode_records_decision (eh : Option String) (d1 d2 : List Nat) (emb : Option String) :
    (normalizeExpected eh ≠ "" →
      (fetchAndVerifyDecision eh d1 d2 emb).mode = "on-chain-file-bytes" ∧
      ((fetchAndVerifyDecision eh d1 d2 emb).ok = true ↔
        toHex d1 = normalizeExpected eh)) ∧
    (normalizeExpected eh = "" →
      ((fetchAndVerifyDecision eh d1 d2 emb).ok = false ↔
        (fetchAndVerifyDecision eh d1 d2 emb).mode = "") ∧
      ((fetchAndVerifyDecision eh d1 d2 emb).mode = "file-bytes" →
        (fetchAndVerifyDecision eh d1 d2 emb).ok = true ∧
        jsToLower (emb.getD "") = toHex d1) ∧
      ((fetchAndVerifyDecision eh d1 d2 emb).mode = "canonical-minus-sha256" →
        (fetchAndVerifyDecision eh d1 d2 emb).ok = true ∧
        jsToLower (emb.getD "") = toHex d2)) := by
  constructor
  · intro h
    refine ⟨?_, ?_⟩
    · simp only [fetchAndVerifyDecision, verdict, if_pos h]
    · simp only [fetchAndVerifyDecision, verdict, if_pos h, jsToLower_toHex]
      exact decide_eq_true_iff
  · intro h
    have hcond : ¬ normalizeExpected eh ≠ "" := by simpa using h
    by_cases h1 : jsToLower (emb.getD "") ≠ "" ∧ jsToLower (emb.getD "") = jsToLower (toHex d1)
    · have hok : (fetchAndVerifyDecision eh d1 d2 emb).ok = true := by
        simp only [fetchAndVerifyDecision, verdict, if_neg hcond, if_pos h1]
      have hmode : (fetchAndVerifyDecision eh d1 d2 emb).mode = "file-bytes" := by
        simp only [fetchAndVerifyDecision, verdict, if_neg hcond, if_pos h1]
      refine ⟨by rw [hok, hmode]; decide, fun _ => ⟨hok, by rw [h1.2, jsToLower_toHex]⟩, ?_⟩
      intro hc
      rw [hmode] at hc
      exact absurd hc (by decide)
    · by_cases h2 : jsToLower (emb.getD "") ≠ "" ∧ jsToLower (emb.getD "") = jsToLower (toHex d2)
      · have hok : (fetchAndVerifyDecision eh d1 d2 emb).ok = true := by
          simp only [fetchAndVerifyDecision, verdict, if_neg hcond, if_neg h1, if_pos h2]
        have hmode : (fetchAndVerifyDecision eh d1 d2 emb).mode = "canonical-minus-sha256" := by
          simp only [fetchAndVerifyDecision, verdict, if_neg hcond, if_neg h1, if_pos h2]
        refine ⟨by rw [hok, hmode]; decide, ?_, fun _ => ⟨hok, by rw [h2.2, jsToLower_toHex]⟩⟩
        intro hc
        rw [hmode] at hc
        exact absurd hc (by decide)
      · have hok : (fetchAndVerifyDecision eh d1 d2 emb).ok = false := by
          simp only [fetchAndVerifyDecision, verdict, if_neg hcond, if_neg h1, if_neg h2]
        have hmode : (fetchAndVerifyDecision eh d1 d2 emb).mode = "" := by
          simp only [fetchAndVerifyDecision, verdict, if_neg hcond, if_neg h1, if_neg h2]
        refine ⟨by rw [hok, hmode]; decide, ?_, ?_⟩
        · intro hc
          rw [hmode] at hc
          exact absurd hc (by decide)
        · intro hc
          rw [hmode] at hc
          exact absurd hc (by decide)

theorem mode_records_decision_witness :
    normalizeExpected (some "0xAB") ≠ "" ∧
    (fetchAndVerifyDecision (some "0xAB") [171] [0] none).mode = "on-chain-file-bytes" := by
  refine ⟨by decide, ?_⟩
  exact ((mode_records_decision (some "0xAB") [171] [0] none).1 (by decide)).1

/-! ## Snapshot loader (src/history.js lines 6-24) -/

/-- Registry descriptor for one snapshot index, as returned by
getSnapshotByIndex: cid, on-chain sha256File (none models a null value) and
timestamp. -/
structure SnapshotDesc where
  cid : String
  sha256File : Option String
  timestamp : Int
deriving DecidableEq, Repr

/-- Test of the regex matching a 0x-prefixed all-zero digest,
case-insensitive: one leading 0, an x of either case, then one or more 0s. -/
def isZeroHexLiteral (s : String) : Bool :=
  match s.data with
  | '0' :: x :: rest => (x == 'x' || x == 'X') && (!rest.isEmpty && rest.all (fun c => c == '0'))
  | _ => false

/-- isZeroHash of src/history.js line 6: a missing, empty or all-zero hash. -/
def isZeroHash (h : Option String) : Bool :=
  match h with
  | none => true
  | some s => s == "" || isZeroHexLiteral s

/-- Line 10 of src/history.js: an all-zero on-chain hash is treated as
"no expected digest". -/
def expectedOf (d : SnapshotDesc) : Option String :=
  if isZeroHash d.sha256File then none else d.sha256File

/-- The two fields of a fetchAndVerifyByCID result that loadSnapshot reads:
r.ok and r.json (none models a missing or null payload). -/
structure LoaderFetch (J : Type) where
  ok : Bool
  json : Option J
deriving DecidableEq, Repr

/-- The record loadSnapshot returns on success:
cid, sha256File, timestamp, json, verified. -/
structure LoadedSnapshot (J : Type) where
  cid : String
  sha256File : Option String
  timestamp : Int
  json : J
  verified : Bool
deriving DecidableEq, Repr

/-- The retry loop of loadSnapshot (lines 13-21): for each attempt number, a
thrown exception (Except.error) is caught and retained as lastErr, a result
without a structured payload falls through to the next attempt, and a result
with a payload returns immediately. -/
def loadAttempts {J : Type} (desc : SnapshotDesc)
    (f : Nat → Except String (LoaderFetch J)) :
    List Nat → Option String → Option (LoadedSnapshot J) × Option String
  | [], lastErr => (none, lastErr)
  | k :: rest, lastErr =>
    match f k with
    | .error e => loadAttempts desc f rest (some e)
    | .ok r =>
      match r.json with
      | some j => (some ⟨desc.cid, desc.sha256File, desc.timestamp, j, r.ok⟩, lastErr)
      | none => loadAttempts desc f rest lastErr

/-- The console.warn diagnostic of line 22. -/
def warnMsg (i : Nat) (lastErr : Option String) : String :=
  "snapshot fetch failed @ index " ++ toString i ++ " " ++ lastErr.getD ""

/-- Embedding of loadSnapshot (src/history.js lines 8-24) for index i, once
the registry read has produced desc.  fetchAndVerify models the effectful
fetchAndVerifyByCID call: given the expected digest and the attempt number it
either throws (Except.error) or returns the fields the loader reads.  The
result pairs the loader's return value with the emitted diagnostic (none when
no warning is logged); the outer Except is the loader's own exception
channel, which the embedded try/catch never uses. -/
def loadSnapshot {J : Type} (i : Nat) (desc : SnapshotDesc)
    (fetchAndVerify : Option String → Nat → Except String (LoaderFetch J)) :
    Except String (Option (LoadedSnapshot J) × Option String) :=
  match loadAttempts desc (fetchAndVerify (expectedOf desc)) [1, 2, 3] none with
  | (some s, _) => .ok (some s, none)
  | (none, lastErr) => .ok (none, some (warnMsg i lastErr))

/-- An attempt outcome carrying no structured payload: either a thrown
exception or a result whose json field is falsy. -/
def noPayload {J : Type} : Except String (LoaderFetch J) → Prop
  | .error _ => True
  | .ok r => r.json = none

theorem loadAttempts_congr {J : Type} (desc : SnapshotDesc)
    (f g : Nat → Except String (LoaderFetch J)) :
    ∀ (ks : List Nat) (le : Option String), (∀ k ∈ ks, f k = g k) →
      loadAttempts desc f ks le = loadAttempts desc g ks le := by
  intro ks
  induction ks with
  | nil => intro le _; rfl
  | cons k rest ih =>
    intro le hk
    have hkk : f k = g k := hk k (by simp)
    have hrest : ∀ x ∈ rest, f x = g x := fun x hx => hk x (by simp [hx])
    rw [loadAttempts, loadAttempts, hkk]
    cases g k with
    | error e => exact ih (some e) hrest
    | ok r =>
      rcases r with ⟨rok, rjson⟩
      cases rjson with
      | some j => rfl
      | none => exact ih le hrest

/-- C6: for every index, loadSnapshot (i) never propagates an exception to
its caller, (ii) performs at most 3 fetch-and-verify attempts: its result
depends on the attempt outcomes only at attempt numbers 1 to 3, (iii) catches
every exception an attempt raises and proceeds to the next attempt, and (iv)
when no attempt yields a structured payload it returns null together with a
logged diagnostic. -/
theorem loadSnapshot_error_handling {J : Type} (i : Nat) (desc : SnapshotDesc)
    (fv gv : Option String → Nat → Except String (LoaderFetch J)) :
    (∃ v, loadSnapshot i desc fv = Except.ok v) ∧
    ((∀ k, 1 ≤ k → k ≤ 3 → fv (expectedOf desc) k = gv (expectedOf desc) k) →
      loadSnapshot i desc fv = loadSnapshot i desc gv) ∧
    (∀ (e : String) (k : Nat) (rest : List Nat) (le : Option String),
      fv (expectedOf desc) k = .error e →
      loadAttempts desc (fv (expectedOf desc)) (k :: rest) le =
        loadAttempts desc (fv (expectedOf desc)) rest (some e)) ∧
    ((∀ k, 1 ≤ k → k ≤ 3 → noPayload (fv (expectedOf desc) k)) →
      ∃ msg, loadSnapshot i desc fv = .ok (none, some msg)) := by
  refine ⟨?_, ?_, ?_, ?_⟩
  · unfold loadSnapshot
    rcases hres : loadAttempts desc (fv (expectedOf desc)) [1, 2, 3] none with ⟨o, le⟩
    cases o <;> exact ⟨_, rfl⟩
  · intro hfg
    unfold loadSnapshot
    rw [loadAttempts_congr desc (fv (expectedOf desc)) (gv (expectedOf desc)) [1, 2, 3] none
      (by intro k hk; fin_cases hk <;> [exact hfg 1 (by omega) (by omega);
        exact hfg 2 (by omega) (by omega); exact hfg 3 (by omega) (by omega)])]
  · intro e k rest le hke
    simp only [loadAttempts, hke]
  · intro hall
    have noP : ∀ (k : Nat), 1 ≤ k → k ≤ 3 → ∀ (rest : List Nat) (le : Option String),
        loadAttempts desc (fv (expectedOf desc)) (k :: rest) le =
          loadAttempts desc (fv (expectedOf desc)) rest
            (match fv (expectedOf desc) k with | .error e => some e | .ok _ => le) := by
      intro k h1 h3 rest le
      have := hall k h1 h3
      cases hk : fv (expectedOf desc) k with
      | error e => simp only [loadAttempts, hk]
      | ok r =>
        rw [hk] at this
        simp only [noPayload] at this
        simp only [loadAttempts, hk, this]
    unfold loadSnapshot
    rw [noP 1 (by omega) (by omega), noP 2 (by omega) (by omega),
      noP 3 (by omega) (by omega)]
    exact ⟨_, rfl⟩

theorem loadSnapshot_error_handling_witness :
    ∃ msg, loadSnapshot (J := Nat) 7 ⟨"bafyroot", some "0xdead", 1700000000⟩
      (fun _ _ => Except.error "gateway timeout") = .ok (none, some msg) := by
  exact (loadSnapshot_error_handling 7 ⟨"bafyroot", some "0xdead", 1700000000⟩
    (fun _ _ => Except.error "gateway timeout") (fun _ _ => Except.error "gateway timeout")).2.2.2
    (fun k _ _ => trivial)

/-! ## Equity series builder (src/history.js lines 44-59) -/

/-- One point of the equity curve: date and equity. -/
structure EquityPoint where
  date : String
  equity : ℚ
deriving DecidableEq, Repr

instance : Inhabited EquityPoint := ⟨⟨"", 0⟩⟩

/-- The per-snapshot inputs of buildEquitySeries that are produced by
external primitives: dateNY is the result of the Intl.DateTimeFormat
rendering of json.as_of_utc in the America/New_York timezone, and
netliqValue is accounts[acctKey].NetLiquidation.value for the account key
different from "All" (none when the chain of accesses is absent, in which
case Number(... ?? 0) yields 0). -/
structure SnapRow where
  dateNY : String
  netliqValue : Option ℚ
deriving DecidableEq, Repr

instance : Inhabited SnapRow := ⟨⟨"", none⟩⟩

/-- Lines 45-52: one row { date, equity } per snapshot. -/
def rowOfSnap (s : SnapRow) : EquityPoint :=
  ⟨s.dateNY, s.netliqValue.getD 0⟩

/-- Lines 45-53: the mapped rows with non-positive equity filtered out. -/
def retainedRows (snaps : List SnapRow) : List EquityPoint :=
  (snaps.map rowOfSnap).filter (fun r => decide (0 < r.equity))

/-- One Map.set step of the dedup loop (line 57): a JS Map keyed by date
keeps the key at its first-insertion position and overwrites the value. -/
def mapSet (m : List EquityPoint) (r : EquityPoint) : List EquityPoint :=
  if m.any (fun x => x.date == r.date)
  then m.map (fun x => if x.date = r.date then r else x)
  else m ++ [r]

/-- Lines 56-57: insert every row into the Map in input order. -/
def dedupeByDate (rows : List EquityPoint) : List EquityPoint :=
  rows.foldl mapSet []

/-- The dates of the list are pairwise distinct. -/
def DNodup (m : List EquityPoint) : Prop :=
  (m.map (fun r => r.date)).Nodup

/-- Comparator of lines 58 and 75: a.date.localeCompare(b.date), modelled as
code-point order on the date strings. -/
def dateLe (a b : EquityPoint) : Prop := a.date ≤ b.date

instance : DecidableRel dateLe := fun a b => inferInstanceAs (Decidable (a.date ≤ b.date))

instance : IsTotal EquityPoint dateLe := ⟨fun a b => le_total a.date b.date⟩

instance : IsTrans EquityPoint dateLe := ⟨fun _ _ _ h1 h2 => le_trans h1 h2⟩

/-- The stable JS Array.prototype.sort with the date comparator. -/
def sortByDate (l : List EquityPoint) : List EquityPoint :=
  List.insertionSort dateLe l

/-- buildEquitySeries of src/history.js lines 44-59: extract rows, drop
non-positive equity, dedupe by date last-write-wins, sort by date. -/
def buildEquitySeries (snaps : List SnapRow) : List EquityPoint :=
  sortByDate (dedupeByDate (retainedRows snaps))

theorem sortByDate_perm (l : List EquityPoint) : List.Perm (sortByDate l) l :=
  List.perm_insertionSort dateLe l

theorem sortByDate_sorted (l : List EquityPoint) : List.Sorted dateLe (sortByDate l) :=
  List.sorted_insertionSort dateLe l

theorem mapSet_dnodup (m : List EquityPoint) (r : EquityPoint) (hm : DNodup m) :
    DNodup (mapSet m r) := by
  unfold mapSet
  by_cases hany : m.any (fun x => x.date == r.date) = true
  · rw [if_pos hany]
    unfold DNodup
    rw [List.map_map]
    have hmap : m.map ((fun y => y.date) ∘ fun x => if x.date = r.date then r else x) =
        m.map (fun y => y.date) := by
      apply List.map_congr_left
      intro x _
      by_cases hx : x.date = r.date
      · simp [Function.comp, hx]
      · simp [Function.comp, hx]
    exact hmap ▸ hm
  · rw [if_neg hany]
    unfold DNodup
    rw [List.map_append]
    simp only [List.map_cons, List.map_nil]
    rw [List.nodup_append]
    refine ⟨hm, List.nodup_singleton _, ?_⟩
    intro a ha hb
    simp only [List.mem_singleton] at hb
    subst hb
    rcases List.mem_map.mp ha with ⟨x, hx, hxd⟩
    have hany' : ∀ x ∈ m, ¬(x.date == r.date) = true := by
      simpa [List.any_eq_true] using hany
    exact hany' x hx (beq_iff_eq.mpr hxd)

theorem filter_map_replace_eq (m : List EquityPoint) (r : EquityPoint)
    (hm : DNodup m) (hany : m.any (fun x => x.date == r.date) = true) :
    (m.map (fun x => if x.date = r.date then r else x)).filter
      (fun x => x.date == r.date) = [r] := by
  induction m with
  | nil => simp at hany
  | cons x xs ih =>
    have hnd : DNodup xs := by
      unfold DNodup at hm ⊢
      simp only [List.map_cons, List.nodup_cons] at hm
      exact hm.2
    have hxnot : x.date ∉ xs.map (fun y => y.date) := by
      unfold DNodup at hm
      simp only [List.map_cons, List.nodup_cons] at hm
      exact hm.1
    by_cases hx : x.date = r.date
    · have htail_id : xs.map (fun y => if y.date = r.date then r else y) = xs := by
        conv_rhs => rw [← List.map_id xs]
        apply List.map_congr_left
        intro y hy
        have hyd : y.date ≠ r.date := by
          intro hc
          apply hxnot
          rw [hx, ← hc]
          exact List.mem_map_of_mem _ hy
        simp [hyd]
      have hfil_tail : xs.filter (fun y => y.date == r.date) = [] := by
        apply List.filter_eq_nil_iff.mpr
        intro y hy
        have hyd : y.date ≠ r.date := by
          intro hc
          apply hxnot
          rw [hx, ← hc]
          exact List.mem_map_of_mem _ hy
        simp [hyd]
      simp only [List.map_cons, if_pos hx, htail_id]
      simp [List.filter_cons, hfil_tail]
    · have hany' : xs.any (fun y => y.date == r.date) = true := by
        simpa [hx] using hany
      have hmain := ih hnd hany'
      simp only [List.map_cons, if_neg hx]
      simpa [List.filter_cons, hx] using hmain

theorem filter_map_replace_ne (m : List EquityPoint) (r : EquityPoint) (d : String)
    (hd : r.date ≠ d) :
    (m.map (fun x => if x.date = r.date then r else x)).filter (fun x => x.date == d) =
      m.filter (fun x => x.date == d) := by
  induction m with
  | nil => rfl
  | cons x xs ih =>
    by_cases hx : x.date = r.date
    · have hxd : x.date ≠ d := by rw [hx]; exact hd
      simp only [List.map_cons, if_pos hx]
      simp [List.filter_cons, hd, hxd, ih]
    · simp only [List.map_cons, if_neg hx]
      by_cases hxd : x.date = d
      · simp [List.filter_cons, hxd, ih]
      · simp [List.filter_cons, hxd, ih]

theorem filter_mapSet (m : List EquityPoint) (r : EquityPoint) (d : String) (hm : DNodup m) :
    (mapSet m r).filter (fun x => x.date == d) =
      if r.date = d then [r] else m.filter (fun x => x.date == d) := by
  unfold mapSet
  by_cases hany : m.any (fun x => x.date == r.date) = true
  · rw [if_pos hany]
    by_cases hd : r.date = d
    · rw [if_pos hd]
      subst hd
      exact filter_map_replace_eq m r hm hany
    · rw [if_neg hd]
      exact filter_map_replace_ne m r d hd
  · rw [if_neg hany]
    rw [List.filter_append]
    have hany' : ∀ y ∈ m, ¬(y.date == r.date) = true := by
      simpa [List.any_eq_true] using hany
    by_cases hd : r.date = d
    · rw [if_pos hd]
      subst hd
      have h1 : m.filter (fun x => x.date == r.date) = [] := by
        apply List.filter_eq_nil_iff.mpr
        exact hany'
      simp [h1]
    · rw [if_neg hd]
      simp [hd]

theorem foldl_mapSet_filter (rows : List EquityPoint) :
    ∀ (m : List EquityPoint), DNodup m → ∀ d : String,
      ((rows.foldl mapSet m).filter (fun x => x.date == d)) =
        (match (rows.filter (fun x => x.date == d)).getLast? with
         | some q => [q]
         | none => m.filter (fun x => x.date == d)) := by
  induction rows with
  | nil =>
    intro m hm d
    simp
  | cons r rest ih =>
    intro m hm d
    rw [List.foldl_cons]
    rw [ih (mapSet m r) (mapSet_dnodup m r hm) d]
    by_cases hd : r.date = d
    · have hpr : (r.date == d) = true := beq_iff_eq.mpr hd
      cases hrest : (rest.filter (fun x => x.date == d)).getLast? with
      | some q =>
        rcases hfil : rest.filter (fun x => x.date == d) with _ | ⟨q0, qs⟩
        · rw [hfil] at hrest
          simp at hrest
        · rw [hfil] at hrest
          simp [List.filter_cons, hpr, hfil, List.getLast?_cons_cons, hrest]
      | none =>
        have hnil : rest.filter (fun x => x.date == d) = [] := by
          cases hfil : rest.filter (fun x => x.date == d) with
          | nil => rfl
          | cons q0 qs =>
            rw [hfil] at hrest
            simp at hrest
        rw [filter_mapSet m r d hm, if_pos hd]
        simp [List.filter_cons, hpr, hnil]
    · have hpr : (r.date == d) = false := by simp [hd]
      rw [filter_mapSet m r d hm, if_neg hd]
      simp [List.filter_cons, hpr]

theorem dedupe_dnodup (rows : List EquityPoint) : DNodup (dedupeByDate rows) := by
  unfold dedupeByDate
  suffices h : ∀ m, DNodup m → DNodup (rows.foldl mapSet m) by
    exact h [] (by simp [DNodup])
  induction rows with
  | nil => intro m hm; exact hm
  | cons r rest ih =>
    intro m hm
    rw [List.foldl_cons]
    exact ih (mapSet m r) (mapSet_dnodup m r hm)

theorem dedupe_filter (rows : List EquityPoint) (d : String) :
    (dedupeByDate rows).filter (fun x => x.date == d) =
      (match (rows.filter (fun x => x.date == d)).getLast? with
       | some q => [q]
       | none => []) := by
  unfold dedupeByDate
  rw [foldl_mapSet_filter rows [] (by simp [DNodup]) d]
  cases (rows.filter (fun x => x.date == d)).getLast? <;> simp

theorem sortByDate_dnodup (l : List EquityPoint) (h : DNodup l) : DNodup (sortByDate l) := by
  unfold DNodup at h ⊢
  exact (((sortByDate_perm l).map (fun r => r.date)).nodup_iff).mpr h

theorem sortByDate_strict (l : List EquityPoint) (h : DNodup l) :
    List.Pairwise (fun a b => a.date < b.date) (sortByDate l) := by
  have hs : List.Pairwise dateLe (sortByDate l) := sortByDate_sorted l
  have hn' := sortByDate_dnodup l h
  unfold DNodup at hn'
  have hn : List.Pairwise (fun a b : EquityPoint => a.date ≠ b.date) (sortByDate l) :=
    (List.pairwise_map).mp hn'
  exact (hs.and hn).imp (fun hab => lt_of_le_of_ne hab.1 hab.2)

/-- C5: whenever two or more retained points of buildEquitySeries map to the
same calendar date, the output contains exactly one point for that date and
it is the retained point at the latest position in the input sequence; the
output is strictly ascending by date, one point per date. -/
theorem buildEquitySeries_last_write_wins (snaps : List SnapRow) (d : String)
    (h : 2 ≤ ((retainedRows snaps).filter (fun r => r.date == d)).length) :
    (buildEquitySeries snaps).filter (fun r => r.date == d) =
      [((retainedRows snaps).filter (fun r => r.date == d)).getLastD default] ∧
    List.Pairwise (fun a b => a.date < b.date) (buildEquitySeries snaps) := by
  constructor
  · have hperm : List.Perm ((buildEquitySeries snaps).filter (fun r => r.date == d))
        ((dedupeByDate (retainedRows snaps)).filter (fun r => r.date == d)) :=
      (sortByDate_perm (dedupeByDate (retainedRows snaps))).filter _
    rw [dedupe_filter] at hperm
    rcases hlast : ((retainedRows snaps).filter (fun r => r.date == d)).getLast? with _ | q
    · rw [List.getLast?_eq_none_iff] at hlast
      rw [hlast] at h
      simp at h
    · rw [hlast] at hperm
      have heq := List.perm_singleton.mp hperm
      rw [heq]
      simp [List.getLastD_eq_getLast?, hlast]
  · exact sortByDate_strict _ (dedupe_dnodup _)

theorem buildEquitySeries_last_write_wins_witness :
    2 ≤ ((retainedRows [⟨"2024-02-01", some 500⟩, ⟨"2024-02-01", some 600⟩]).filter
        (fun r => r.date == "2024-02-01")).length ∧
    (buildEquitySeries [⟨"2024-02-01", some 500⟩, ⟨"2024-02-01", some 600⟩]).filter
        (fun r => r.date == "2024-02-01") =
      [((retainedRows [⟨"2024-02-01", some 500⟩, ⟨"2024-02-01", some 600⟩]).filter
          (fun r => r.date == "2024-02-01")).getLastD default] := by
  refine ⟨by decide, ?_⟩
  exact (buildEquitySeries_last_write_wins
    [⟨"2024-02-01", some 500⟩, ⟨"2024-02-01", some 600⟩] "2024-02-01" (by decide)).1

/-- C9: non-positive-equity rows are discarded before date deduplication:
when the retained point at position i is positive and every later snapshot
mapping to the same date has non-positive (or missing, hence zero) equity,
the built series still contains position i's point — the later non-positive
snapshot neither drops the date nor overwrites it. -/
theorem nonpositive_dropped_before_dedup (snaps : List SnapRow) (i : Nat)
    (hi : i < snaps.length)
    (hpos : 0 < (rowOfSnap (snaps.getD i default)).equity)
    (hlater : ∀ j, i < j → j < snaps.length →
      (rowOfSnap (snaps.getD j default)).date = (rowOfSnap (snaps.getD i default)).date →
      (rowOfSnap (snaps.getD j default)).equity ≤ 0)
    (hex : ∃ j, i < j ∧ j < snaps.length ∧
      (rowOfSnap (snaps.getD j default)).date = (rowOfSnap (snaps.getD i default)).date ∧
      (rowOfSnap (snaps.getD j default)).equity ≤ 0) :
    rowOfSnap (snaps.getD i default) ∈ buildEquitySeries snaps := by
  clear hex
  set r0 := rowOfSnap (snaps.getD i default) with hr0
  set d := r0.date with hdd
  have hsplit : snaps = snaps.take i ++ snaps.getD i default :: snaps.drop (i + 1) := by
    conv_lhs => rw [← List.take_append_drop i snaps]
    congr 1
    rw [List.getD_eq_getElem snaps default hi]
    exact List.drop_eq_getElem_cons hi
  have hkey : ((retainedRows snaps).filter (fun r => r.date == d)).getLast? = some r0 := by
    unfold retainedRows
    rw [List.filter_filter]
    conv_lhs => rw [hsplit]
    rw [List.map_append, List.map_cons, List.filter_append, List.filter_cons]
    have hhead : ((r0.date == d) && decide (0 < r0.equity)) = true := by
      simp [hpos]
    rw [if_pos hhead]
    have htail : ((snaps.drop (i + 1)).map rowOfSnap).filter
        (fun r => (r.date == d) && decide (0 < r.equity)) = [] := by
      apply List.filter_eq_nil_iff.mpr
      intro y hy
      rcases List.mem_map.mp hy with ⟨x, hx, rfl⟩
      rcases List.mem_iff_getElem.mp hx with ⟨k, hk, hxk⟩
      have hk2 : i + 1 + k < snaps.length := by
        have := hk
        rw [List.length_drop] at this
        omega
      have hxval : x = snaps.getD (i + 1 + k) default := by
        rw [List.getD_eq_getElem snaps default hk2, ← List.getElem_drop, hxk]
      intro hcontra
      simp only [Bool.and_eq_true, beq_iff_eq, decide_eq_true_eq] at hcontra
      have hle := hlater (i + 1 + k) (by omega) hk2 (by rw [← hxval, hcontra.1])
      rw [← hxval] at hle
      exact absurd hcontra.2 (not_lt.mpr hle)
    rw [htail]
    simp only [List.getLast?_concat]
  have hded : (dedupeByDate (retainedRows snaps)).filter (fun r => r.date == d) = [r0] := by
    rw [dedupe_filter, hkey]
  have hmem : r0 ∈ dedupeByDate (retainedRows snaps) := by
    apply List.mem_of_mem_filter (p := fun r => r.date == d)
    rw [hded]
    exact List.mem_singleton_self r0
  exact ((sortByDate_perm (dedupeByDate (retainedRows snaps))).mem_iff).mpr hmem

theorem nonpositive_dropped_before_dedup_witness :
    rowOfSnap (([⟨"2024-03-01", some 500⟩, ⟨"2024-03-01", some 0⟩] : List SnapRow).getD 0 default) ∈
      buildEquitySeries [⟨"2024-03-01", some 500⟩, ⟨"2024-03-01", some 0⟩] := by
  refine nonpositive_dropped_before_dedup
    [⟨"2024-03-01", some 500⟩, ⟨"2024-03-01", some 0⟩] 0 (by decide) (by decide) ?_ ?_
  · intro j h1 h2 _
    have hj : j = 1 := by
      simp only [List.length_cons, List.length_nil] at h2
      omega
    subst hj
    decide
  · exact ⟨1, by decide, by decide, by decide, by decide⟩

/-! ## Performance analytics engine (src/history.js lines 61-136) -/

/-- One daily-return point (lines 78-83). -/
structure RetPoint where
  date : String
  ret : ℚ
deriving DecidableEq, Repr

instance : Inhabited RetPoint := ⟨⟨"", 0⟩⟩

/-- One wealth-index point (lines 85-91). -/
structure VamiPoint where
  date : String
  v : ℚ
deriving DecidableEq, Repr

instance : Inhabited VamiPoint := ⟨⟨"", 0⟩⟩

/-- One drawdown point (lines 93-102). -/
structure DDPoint where
  date : String
  dd : ℚ
deriving DecidableEq, Repr

instance : Inhabited DDPoint := ⟨⟨"", 0⟩⟩

/-- The tracked max drawdown record (line 96). -/
structure MaxDD where
  dd : ℚ
  date : String
deriving DecidableEq, Repr

/-- Lines 78-83: daily returns over the sorted series; the return at index 0
is 0, else equity[i] / equity[i-1] - 1. -/
def returnsOf (s : List EquityPoint) : List RetPoint :=
  (List.range s.length).map fun i =>
    if i = 0 then ⟨(s.getD 0 default).date, 0⟩
    else ⟨(s.getD i default).date,
      (s.getD i default).equity / (s.getD (i - 1) default).equity - 1⟩

/-- The VAMI loop body for indices past 0, threading the previous value. -/
def vamiAux (prev : ℚ) : List RetPoint → List VamiPoint
  | [] => []
  | r :: rest => ⟨r.date, prev * (1 + r.ret)⟩ :: vamiAux (prev * (1 + r.ret)) rest

/-- Lines 85-91: the wealth index, iterative, starting at 1000. -/
def vamiOf (s : List EquityPoint) : List VamiPoint :=
  if s = [] then []
  else ⟨(s.getD 0 default).date, 1000⟩ :: vamiAux 1000 ((returnsOf s).drop 1)

/-- One update of the tracked max drawdown (line 101): strictly-smaller wins,
so ties keep the earliest occurrence. -/
def updMaxDD (m : MaxDD) (p : DDPoint) : MaxDD :=
  if p.dd < m.dd then ⟨p.dd, p.date⟩ else m

/-- Lines 97-102: the drawdown loop, threading the running peak and the
tracked max drawdown. -/
def ddAux (peak : ℚ) (acc : MaxDD) : List VamiPoint → List DDPoint × MaxDD
  | [] => ([], acc)
  | v :: rest =>
    let peak2 := max peak v.v
    let dd := v.v / peak2 - 1
    let acc2 := updMaxDD acc ⟨v.date, dd⟩
    let p := ddAux peak2 acc2 rest
    (⟨v.date, dd⟩ :: p.1, p.2)

/-- Lines 93-102: drawdown series and tracked max drawdown, with the peak
seeded from vami[0] and the max tracker from dd 0 at the first date. -/
def drawdownOf (s : List EquityPoint) : List DDPoint × MaxDD :=
  ddAux (((vamiOf s).getD 0 default).v) ⟨0, (s.getD 0 default).date⟩ (vamiOf s)

/-- mean of lines 62 and 107: sum divided by (length or 1). -/
def meanQ (arr : List ℚ) : ℚ :=
  arr.sum / (if arr.length = 0 then 1 else (arr.length : ℚ))

/-- The radicand of std (line 108): mean of the squared deviations. -/
def varQ (arr : List ℚ) : ℚ :=
  meanQ (arr.map (fun x => (x - meanQ arr) ^ 2))

/-- std of lines 63-66 and 108: Math.sqrt of the mean squared deviation. -/
noncomputable def stdR (arr : List ℚ) : ℝ :=
  Real.sqrt ((varQ arr : ℚ) : ℝ)

/-- Line 105: the daily returns without the synthetic index-0 zero. -/
def retsOf (s : List EquityPoint) : List ℚ :=
  ((returnsOf s).drop 1).map (fun r => r.ret)

/-- s[s.length - 1].equity. -/
def lastEquity (s : List EquityPoint) : ℚ := (s.getD (s.length - 1) default).equity

/-- s[0].equity. -/
def firstEquity (s : List EquityPoint) : ℚ := (s.getD 0 default).equity

/-- Line 111: annualized volatility. -/
noncomputable def volAnnOf (s : List EquityPoint) : ℝ :=
  stdR (retsOf s) * Real.sqrt 252

/-- Line 113: Sharpe ratio, 0 when the annualized volatility is not
strictly positive. -/
noncomputable def sharpeOf (s : List EquityPoint) : ℝ :=
  if 0 < volAnnOf s then ((meanQ (retsOf s) : ℚ) : ℝ) * 252 / volAnnOf s else 0

/-- Line 112: annualized return via real exponentiation. -/
noncomputable def annualReturnOf (s : List EquityPoint) : ℝ :=
  if 0 < (retsOf s).length then
    Real.rpow (((lastEquity s / firstEquity s : ℚ) : ℝ)) (252 / ((retsOf s).length : ℝ)) - 1
  else 0

/-- Model of new Date(date).getFullYear() on an ISO YYYY-MM-DD date string:
the leading four digits. -/
def yearOf (date : String) : Nat := (date.take 4).toNat?.getD 0

/-- Lines 116-123: YTD against the observation preceding the first point of
the current year (or the very first point). -/
def ytdOf (y : Nat) (s : List EquityPoint) : Option ℚ :=
  match s.findIdx? (fun p => yearOf p.date == y) with
  | some idx =>
    some (lastEquity s /
      (if 0 < idx then (s.getD (idx - 1) default).equity else (s.getD 0 default).equity) - 1)
  | none => none

/-- The stats record of lines 125-133. -/
structure PerfStats where
  since_inception : ℚ
  annual_return : ℝ
  annual_vol : ℝ
  sharpe : ℝ
  max_drawdown : ℚ
  ytd : Option ℚ
  days : Nat

/-- The return value of computePerformance. -/
structure PerfOutput where
  series : List EquityPoint
  returns : List RetPoint
  vami : List VamiPoint
  drawdown : List DDPoint
  stats : Option PerfStats

/-- The empty result of line 71 (stats is the empty object, modelled none). -/
def emptyPerf : PerfOutput := ⟨[], [], [], [], none⟩

/-- The body of computePerformance after the defensive sort (lines 77-135),
applied to the sorted series s; y is the wall-clock year of line 117. -/
noncomputable def computeFromSorted (y : Nat) (s : List EquityPoint) : PerfOutput :=
  { series := s
    returns := returnsOf s
    vami := vamiOf s
    drawdown := (drawdownOf s).1
    stats := some
      { since_inception := lastEquity s / firstEquity s - 1
        annual_return := annualReturnOf s
        annual_vol := volAnnOf s
        sharpe := sharpeOf s
        max_drawdown := (drawdownOf s).2.dd
        ytd := ytdOf y s
        days := (retsOf s).length } }

/-- computePerformance of src/history.js lines 69-136; the wall-clock year
read by new Date().getFullYear() is passed as y. -/
noncomputable def computePerformance (y : Nat) (series : List EquityPoint) : PerfOutput :=
  if series = [] then emptyPerf else computeFromSorted y (sortByDate series)

/-! ## Heap model for the defensive copy (line 75) -/

/-- A store of JS arrays of equity points, addressed by reference. -/
abbrev Heap := List (List EquityPoint)

/-- Read the array behind a reference. -/
def heapGet (h : Heap) (r : Nat) : List EquityPoint := h.getD r []

/-- In-place update of the array behind a reference. -/
def heapSet (h : Heap) (r : Nat) (v : List EquityPoint) : Heap := h.set r v

/-- Allocate a fresh array, returning the new heap and the new reference. -/
def heapAlloc (h : Heap) (v : List EquityPoint) : Heap × Nat := (h ++ [v], h.length)

/-- computePerformance at the heap level: the input array lives at reference
r; the spread on line 75 allocates a fresh copy and the in-place
Array.prototype.sort mutates only that copy. -/
noncomputable def computePerformanceHeap (y : Nat) (h : Heap) (r : Nat) : Heap × PerfOutput :=
  let series := heapGet h r
  if series = [] then (h, emptyPerf)
  else
    let al := heapAlloc h series
    let h2 := heapSet al.1 al.2 (sortByDate (heapGet al.1 al.2))
    (h2, computeFromSorted y (heapGet h2 al.2))

/-- C10: computePerformance does not mutate its input.  At the heap level,
the array behind the input reference is unchanged by the call (elements,
order and fields), because the defensive re-sort operates on the freshly
allocated copy; and the returned value is exactly the pure
computePerformance of the input array's contents. -/
theorem computePerformance_no_mutation (y : Nat) (h : Heap) (r : Nat) :
    heapGet (computePerformanceHeap y h r).1 r = heapGet h r ∧
    (computePerformanceHeap y h r).2 = computePerformance y (heapGet h r) := by
  by_cases hempty : heapGet h r = []
  · constructor
    · simp [computePerformanceHeap, hempty]
    · simp [computePerformanceHeap, computePerformance, hempty, emptyPerf]
  · have hr : r < h.length := by
      by_contra hge
      push_neg at hge
      apply hempty
      unfold heapGet
      exact List.getD_eq_default _ _ hge
    have hcopy : heapGet (h ++ [heapGet h r]) h.length = heapGet h r := by
      unfold heapGet
      rw [List.getD_eq_getElem?_getD, List.getElem?_concat_length]
      rfl
    constructor
    · simp only [computePerformanceHeap, if_neg hempty, heapAlloc, heapSet]
      unfold heapGet
      rw [List.getD_eq_getElem?_getD, List.getElem?_set_ne (by omega : h.length ≠ r),
        List.getElem?_append_left hr, ← List.getD_eq_getElem?_getD]
    · simp only [computePerformanceHeap, computePerformance, if_neg hempty, heapAlloc, heapSet]
      congr 1
      unfold heapGet
      rw [List.getD_eq_getElem?_getD]
      rw [List.getElem?_set_self (by rw [List.length_append]; simp)]
      simp only [Option.getD_some]
      congr 1

theorem returnsOf_length (s : List EquityPoint) : (returnsOf s).length = s.length := by
  simp [returnsOf]

theorem returnsOf_getD (s : List EquityPoint) (i : Nat) (hi : i < s.length) :
    (returnsOf s).getD i default =
      (if i = 0 then ⟨(s.getD 0 default).date, 0⟩
       else ⟨(s.getD i default).date,
         (s.getD i default).equity / (s.getD (i - 1) default).equity - 1⟩ : RetPoint) := by
  unfold returnsOf
  rw [List.getD_eq_getElem?_getD, List.getElem?_map, List.getElem?_range hi]
  rfl

theorem vamiAux_length (prev : ℚ) (l : List RetPoint) : (vamiAux prev l).length = l.length := by
  induction l generalizing prev with
  | nil => rfl
  | cons r rest ih => simp [vamiAux, ih]

theorem vamiOf_length (s : List EquityPoint) (hs : s ≠ []) : (vamiOf s).length = s.length := by
  unfold vamiOf
  rw [if_neg hs]
  simp only [List.length_cons, vamiAux_length, List.length_drop, returnsOf_length]
  have := List.length_pos.mpr hs
  omega

theorem vamiAux_getD_zero (l : List RetPoint) (prev : ℚ) (hl : l ≠ []) :
    (vamiAux prev l).getD 0 default =
      ⟨(l.getD 0 default).date, prev * (1 + (l.getD 0 default).ret)⟩ := by
  cases l with
  | nil => exact absurd rfl hl
  | cons r rest => rfl

theorem vamiAux_getD_succ (l : List RetPoint) (prev : ℚ) (i : Nat) (hi : i + 1 < l.length) :
    ((vamiAux prev l).getD (i + 1) default).v =
      ((vamiAux prev l).getD i default).v * (1 + (l.getD (i + 1) default).ret) := by
  induction l generalizing prev i with
  | nil => simp at hi
  | cons r rest ih =>
    cases i with
    | zero =>
      have hrest : rest ≠ [] := by
        intro hc
        rw [hc] at hi
        simp at hi
      simp only [vamiAux, List.getD_cons_succ, List.getD_cons_zero]
      rw [vamiAux_getD_zero rest (prev * (1 + r.ret)) hrest]
    | succ k =>
      have hk : k + 1 < rest.length := by
        simp only [List.length_cons] at hi
        omega
      simp only [vamiAux, List.getD_cons_succ]
      exact ih (prev * (1 + r.ret)) k hk

theorem vamiOf_getD_zero (s : List EquityPoint) (hs : s ≠ []) :
    (vamiOf s).getD 0 default = ⟨(s.getD 0 default).date, 1000⟩ := by
  unfold vamiOf
  rw [if_neg hs]
  rfl

theorem returnsOf_drop_getD (s : List EquityPoint) (k : Nat) :
    ((returnsOf s).drop 1).getD k default = (returnsOf s).getD (1 + k) default := by
  rw [List.getD_eq_getElem?_getD, List.getD_eq_getElem?_getD, List.getElem?_drop]

theorem vamiOf_recurrence (s : List EquityPoint) (i : Nat) (hi : i + 1 < s.length) :
    ((vamiOf s).getD (i + 1) default).v =
      ((vamiOf s).getD i default).v * (1 + ((returnsOf s).getD (i + 1) default).ret) := by
  have hs : s ≠ [] := by
    intro hc
    rw [hc] at hi
    simp at hi
  unfold vamiOf
  rw [if_neg hs]
  cases i with
  | zero =>
    have hlen : 0 < ((returnsOf s).drop 1).length := by
      simp only [List.length_drop, returnsOf_length]
      omega
    have hrtail : (returnsOf s).drop 1 ≠ [] := List.length_pos.mp hlen
    rw [List.getD_cons_succ, List.getD_cons_zero]
    rw [vamiAux_getD_zero _ _ hrtail]
    rw [returnsOf_drop_getD]
  | succ k =>
    rw [List.getD_cons_succ, List.getD_cons_succ]
    have hk : k + 1 < ((returnsOf s).drop 1).length := by
      simp only [List.length_drop, returnsOf_length]
      omega
    rw [vamiAux_getD_succ _ _ k hk]
    rw [returnsOf_drop_getD]
    have harith : 1 + (k + 1) = k + 1 + 1 := by omega
    rw [harith]

/-- C3: for a non-empty equity series, the wealth index starts at 1000,
the daily return at index 0 is 0, the index compounds multiplicatively
(vami[i] = vami[i-1] * (1 + return[i]) for i > 0, stated with i = j + 1),
and for every i > 0 the daily return is equity[i] / equity[i-1] - 1 over
the date-sorted series. -/
theorem wealth_index_recurrence (y : Nat) (series : List EquityPoint) (h : series ≠ []) :
    (((computePerformance y series).vami.getD 0 default).v = 1000) ∧
    (((computePerformance y series).returns.getD 0 default).ret = 0) ∧
    (∀ i, i + 1 < (computePerformance y series).vami.length →
      ((computePerformance y series).vami.getD (i + 1) default).v =
        ((computePerformance y series).vami.getD i default).v *
          (1 + ((computePerformance y series).returns.getD (i + 1) default).ret)) ∧
    (∀ i, i + 1 < (computePerformance y series).returns.length →
      ((computePerformance y series).returns.getD (i + 1) default).ret =
        ((sortByDate series).getD (i + 1) default).equity /
          ((sortByDate series).getD i default).equity - 1) := by
  have hvami : (computePerformance y series).vami = vamiOf (sortByDate series) := by
    unfold computePerformance
    rw [if_neg h]
    rfl
  have hret : (computePerformance y series).returns = returnsOf (sortByDate series) := by
    unfold computePerformance
    rw [if_neg h]
    rfl
  have hs : sortByDate series ≠ [] := by
    intro hc
    have hlen := (sortByDate_perm series).length_eq
    rw [hc] at hlen
    simp only [List.length_nil] at hlen
    exact h (List.length_eq_zero.mp hlen.symm)
  rw [hvami, hret]
  refine ⟨?_, ?_, ?_, ?_⟩
  · rw [vamiOf_getD_zero _ hs]
  · have h0 : 0 < (sortByDate series).length := List.length_pos.mpr hs
    rw [returnsOf_getD _ 0 h0]
    simp
  · intro i hi
    rw [vamiOf_length _ hs] at hi
    exact vamiOf_recurrence _ i hi
  · intro i hi
    rw [returnsOf_length] at hi
    rw [returnsOf_getD _ (i + 1) hi]
    simp

theorem wealth_index_recurrence_witness :
    ([⟨"2024-01-01", 100000⟩, ⟨"2024-01-02", 110000⟩] : List EquityPoint) ≠ [] ∧
    ((computePerformance 2024
      [⟨"2024-01-01", 100000⟩, ⟨"2024-01-02", 110000⟩]).vami.getD 0 default).v = 1000 := by
  refine ⟨by simp, ?_⟩
  exact (wealth_index_recurrence 2024
    [⟨"2024-01-01", 100000⟩, ⟨"2024-01-02", 110000⟩] (by simp)).1

theorem foldl_max_le_init (l : List ℚ) (a b : ℚ) (h : b ≤ a) : b ≤ l.foldl max a := by
  induction l generalizing a with
  | nil => simpa
  | cons x xs ih => exact ih (max a x) (le_trans h (le_max_left a x))

theorem mem_le_foldl_max (l : List ℚ) (a x : ℚ) (hx : x ∈ l) : x ≤ l.foldl max a := by
  induction l generalizing a with
  | nil => cases hx
  | cons y ys ih =>
    rcases List.mem_cons.mp hx with rfl | hmem
    · exact foldl_max_le_init ys (max a x) x (le_max_right a x)
    · exact ih (max a y) hmem

theorem ddAux_fst_length (peak : ℚ) (acc : MaxDD) (l : List VamiPoint) :
    (ddAux peak acc l).1.length = l.length := by
  induction l generalizing peak acc with
  | nil => rfl
  | cons v rest ih => simp [ddAux, ih]

theorem ddAux_fst_getD (l : List VamiPoint) (peak : ℚ) (acc : MaxDD) (i : Nat)
    (hi : i < l.length) :
    (ddAux peak acc l).1.getD i default =
      ⟨(l.getD i default).date,
       (l.getD i default).v / (((l.take (i + 1)).map (fun p => p.v)).foldl max peak) - 1⟩ := by
  induction l generalizing peak acc i with
  | nil => simp at hi
  | cons v rest ih =>
    cases i with
    | zero =>
      simp only [ddAux, List.getD_cons_zero, List.take_succ_cons, List.take_zero,
        List.map_cons, List.map_nil, List.foldl_cons, List.foldl_nil]
    | succ k =>
      have hk : k < rest.length := by
        simp only [List.length_cons] at hi
        omega
      simp only [ddAux, List.getD_cons_succ, List.take_succ_cons, List.map_cons,
        List.foldl_cons]
      exact ih (max peak v.v) (updMaxDD acc ⟨v.date, v.v / max peak v.v - 1⟩) k hk

theorem ddAux_snd_foldl (l : List VamiPoint) (peak : ℚ) (acc : MaxDD) :
    (ddAux peak acc l).2 = ((ddAux peak acc l).1).foldl updMaxDD acc := by
  induction l generalizing peak acc with
  | nil => rfl
  | cons v rest ih =>
    simp only [ddAux, List.foldl_cons]
    exact ih (max peak v.v) (updMaxDD acc ⟨v.date, v.v / max peak v.v - 1⟩)

theorem updMaxDD_dd_le_left (a : MaxDD) (p : DDPoint) : (updMaxDD a p).dd ≤ a.dd := by
  unfold updMaxDD
  split_ifs with hlt
  · exact le_of_lt hlt
  · exact le_refl _

theorem updMaxDD_dd_le_right (a : MaxDD) (p : DDPoint) : (updMaxDD a p).dd ≤ p.dd := by
  unfold updMaxDD
  split_ifs with hlt
  · exact le_refl _
  · exact not_lt.mp hlt

theorem foldl_updMaxDD_spec (l : List DDPoint) (a : MaxDD) :
    (∀ k, k < l.length → (l.foldl updMaxDD a).dd ≤ (l.getD k default).dd) ∧
    (l.foldl updMaxDD a).dd ≤ a.dd ∧
    (l.foldl updMaxDD a = a ∨
      ∃ j, j < l.length ∧ (l.getD j default).dd = (l.foldl updMaxDD a).dd ∧
        (l.getD j default).date = (l.foldl updMaxDD a).date ∧
        (l.foldl updMaxDD a).dd < a.dd ∧
        ∀ k, k < j → (l.foldl updMaxDD a).dd < (l.getD k default).dd) := by
  induction l generalizing a with
  | nil =>
    refine ⟨?_, le_refl _, Or.inl rfl⟩
    intro k hk
    simp at hk
  | cons p rest ih =>
    rw [List.foldl_cons]
    rcases ih (updMaxDD a p) with ⟨h1, h2, h3⟩
    have hle_a : (updMaxDD a p).dd ≤ a.dd := updMaxDD_dd_le_left a p
    have hle_p : (updMaxDD a p).dd ≤ p.dd := updMaxDD_dd_le_right a p
    refine ⟨?_, le_trans h2 hle_a, ?_⟩
    · intro k hk
      cases k with
      | zero => exact le_trans h2 hle_p
      | succ m =>
        have hm : m < rest.length := by
          simp only [List.length_cons] at hk
          omega
        exact h1 m hm
    · rcases h3 with heq | ⟨j, hj, hval, hdate, hlt, hmin⟩
      · by_cases hplt : p.dd < a.dd
        · right
          refine ⟨0, by simp, ?_, ?_, ?_, ?_⟩
          · rw [heq]
            simp [updMaxDD, hplt]
          · rw [heq]
            simp [updMaxDD, hplt]
          · rw [heq]
            simp only [updMaxDD, if_pos hplt]
            exact hplt
          · intro k hk
            exact absurd hk (Nat.not_lt_zero k)
        · left
          rw [heq]
          simp [updMaxDD, hplt]
      · right
        refine ⟨j + 1, by simpa using hj, by simpa using hval, by simpa using hdate,
          lt_of_lt_of_le hlt hle_a, ?_⟩
        intro k hk
        cases k with
        | zero =>
          simp only [List.getD_cons_zero]
          exact lt_of_lt_of_le hlt hle_p
        | succ m =>
          have hm : m < j := by omega
          simpa using hmin m hm

/-- Modelled from the spec: the running peak at index i of the wealth index
is its maximum over positions 0 through i inclusive, computed as a fold over
those values seeded at vami[0] (which lies in the range, so the seed does
not change the maximum). -/
def specRunningPeak (vami : List VamiPoint) (i : Nat) : ℚ :=
  ((vami.take (i + 1)).map (fun p => p.v)).foldl max ((vami.getD 0 default).v)

theorem getD_v_mem_take_map (l : List VamiPoint) (i : Nat) (hi : i < l.length) :
    (l.getD i default).v ∈ (l.take (i + 1)).map (fun p => p.v) := by
  apply List.mem_map_of_mem
  have hlen : i < (l.take (i + 1)).length := by
    rw [List.length_take]
    omega
  have hsame : (l.take (i + 1)).getD i default = l.getD i default := by
    rw [List.getD_eq_getElem?_getD, List.getD_eq_getElem?_getD, List.getElem?_take]
    simp
  rw [← hsame, List.getD_eq_getElem _ _ hlen]
  exact List.getElem_mem hlen

/-- C4: for a non-empty all-positive equity series, every drawdown value is
wealthIndex[i] / runningPeak[i] - 1 and is at most 0, and the reported max
drawdown is the minimum drawdown over the series, attained at the earliest
occurrence (every strictly earlier point has a strictly larger drawdown),
whose date is the one tracked by the loop. -/
theorem drawdown_law (y : Nat) (series : List EquityPoint) (h : series ≠ [])
    (hpos : ∀ p ∈ series, 0 < p.equity) :
    (∀ i, i < (computePerformance y series).drawdown.length →
      ((computePerformance y series).drawdown.getD i default).dd =
        ((computePerformance y series).vami.getD i default).v /
          specRunningPeak (computePerformance y series).vami i - 1 ∧
      ((computePerformance y series).drawdown.getD i default).dd ≤ 0) ∧
    (∃ st, (computePerformance y series).stats = some st ∧
      st.max_drawdown = (drawdownOf (sortByDate series)).2.dd ∧
      (∀ k, k < (computePerformance y series).drawdown.length →
        st.max_drawdown ≤ ((computePerformance y series).drawdown.getD k default).dd) ∧
      (∃ j, j < (computePerformance y series).drawdown.length ∧
        ((computePerformance y series).drawdown.getD j default).dd = st.max_drawdown ∧
        ((computePerformance y series).drawdown.getD j default).date =
          (drawdownOf (sortByDate series)).2.date ∧
        ∀ k, k < j → st.max_drawdown <
          ((computePerformance y series).drawdown.getD k default).dd)) := by
  clear hpos
  have hdd : (computePerformance y series).drawdown = (drawdownOf (sortByDate series)).1 := by
    unfold computePerformance
    rw [if_neg h]
    rfl
  have hvami : (computePerformance y series).vami = vamiOf (sortByDate series) := by
    unfold computePerformance
    rw [if_neg h]
    rfl
  have hstats : ∃ st, (computePerformance y series).stats = some st ∧
      st.max_drawdown = (drawdownOf (sortByDate series)).2.dd := by
    unfold computePerformance
    rw [if_neg h]
    exact ⟨_, rfl, rfl⟩
  have hs : sortByDate series ≠ [] := by
    intro hc
    have hlen := (sortByDate_perm series).length_eq
    rw [hc] at hlen
    simp only [List.length_nil] at hlen
    exact h (List.length_eq_zero.mp hlen.symm)
  set s := sortByDate series with hsdef
  have hslen : 0 < s.length := List.length_pos.mpr hs
  have hvlen : (vamiOf s).length = s.length := vamiOf_length s hs
  have hv0 : (vamiOf s).getD 0 default = ⟨(s.getD 0 default).date, 1000⟩ :=
    vamiOf_getD_zero s hs
  have hpeak : ((vamiOf s).getD 0 default).v = 1000 := by rw [hv0]
  have hddlen : (drawdownOf s).1.length = (vamiOf s).length := by
    unfold drawdownOf
    exact ddAux_fst_length _ _ _
  have heqval : ∀ i, i < (vamiOf s).length →
      (drawdownOf s).1.getD i default =
        ⟨((vamiOf s).getD i default).date,
         ((vamiOf s).getD i default).v / specRunningPeak (vamiOf s) i - 1⟩ := by
    intro i hiv
    unfold drawdownOf specRunningPeak
    exact ddAux_fst_getD (vamiOf s) _ _ i hiv
  have hPpos : ∀ i, 0 < specRunningPeak (vamiOf s) i := by
    intro i
    unfold specRunningPeak
    have h1000 : (1000 : ℚ) ≤ _ :=
      foldl_max_le_init (((vamiOf s).take (i + 1)).map (fun p => p.v))
        (((vamiOf s).getD 0 default).v) 1000 (le_of_eq hpeak.symm)
    linarith
  have hvle : ∀ i, i < (vamiOf s).length →
      ((vamiOf s).getD i default).v ≤ specRunningPeak (vamiOf s) i := by
    intro i hiv
    exact mem_le_foldl_max _ _ _ (getD_v_mem_take_map (vamiOf s) i hiv)
  rw [hdd, hvami]
  constructor
  · intro i hi
    have hiv : i < (vamiOf s).length := by rwa [hddlen] at hi
    have heq : ((drawdownOf s).1.getD i default).dd =
        ((vamiOf s).getD i default).v / specRunningPeak (vamiOf s) i - 1 := by
      rw [heqval i hiv]
    refine ⟨heq, ?_⟩
    rw [heq]
    have hle1 : ((vamiOf s).getD i default).v / specRunningPeak (vamiOf s) i ≤ 1 :=
      (div_le_one (hPpos i)).mpr (hvle i hiv)
    linarith
  · obtain ⟨st, hst, hmd⟩ := hstats
    have hsnd : (drawdownOf s).2 =
        (drawdownOf s).1.foldl updMaxDD ⟨0, (s.getD 0 default).date⟩ := by
      unfold drawdownOf
      exact ddAux_snd_foldl _ _ _
    obtain ⟨hmin, hlea, hcases⟩ :=
      foldl_updMaxDD_spec (drawdownOf s).1 ⟨0, (s.getD 0 default).date⟩
    have hd0len : 0 < (drawdownOf s).1.length := by
      rw [hddlen, hvlen]
      exact hslen
    have h0v : 0 < (vamiOf s).length := by rwa [hvlen]
    have hdd0 : ((drawdownOf s).1.getD 0 default).dd = 0 := by
      rw [heqval 0 h0v]
      simp only
      have : specRunningPeak (vamiOf s) 0 = 1000 := by
        unfold specRunningPeak
        rcases hvl : vamiOf s with _ | ⟨v0, vrest⟩
        · rw [hvl] at h0v
          simp at h0v
        · rw [hvl] at hv0
          simp only [List.getD_cons_zero] at hv0 ⊢
          rw [hv0]
          simp
      rw [this, hpeak]
      norm_num
    have hdd0date : ((drawdownOf s).1.getD 0 default).date = (s.getD 0 default).date := by
      rw [heqval 0 h0v]
      simp only
      rw [hv0]
    refine ⟨st, hst, hmd, ?_, ?_⟩
    · intro k hk
      rw [hmd, hsnd]
      exact hmin k hk
    · rcases hcases with heqa | ⟨j, hj, hval, hdate, hlt, hold⟩
      · refine ⟨0, hd0len, ?_, ?_, ?_⟩
        · rw [hmd, hsnd, heqa, hdd0]
        · rw [hdd0date, hsnd, heqa]
        · intro k hk
          exact absurd hk (Nat.not_lt_zero k)
      · refine ⟨j, hj, ?_, ?_, ?_⟩
        · rw [hmd, hsnd, hval]
        · rw [hsnd, hdate]
        · intro k hk
          rw [hmd, hsnd]
          exact hold k hk

theorem drawdown_law_witness :
    ([⟨"2024-01-01", 100000⟩, ⟨"2024-01-02", 110000⟩, ⟨"2024-01-03", 99000⟩] :
        List EquityPoint) ≠ [] ∧
    (∀ p ∈ ([⟨"2024-01-01", 100000⟩, ⟨"2024-01-02", 110000⟩, ⟨"2024-01-03", 99000⟩] :
        List EquityPoint), 0 < p.equity) ∧
    ∃ st, (computePerformance 2024
        [⟨"2024-01-01", 100000⟩, ⟨"2024-01-02", 110000⟩, ⟨"2024-01-03", 99000⟩]).stats =
          some st ∧
      st.max_drawdown = (drawdownOf (sortByDate
        [⟨"2024-01-01", 100000⟩, ⟨"2024-01-02", 110000⟩, ⟨"2024-01-03", 99000⟩])).2.dd := by
  refine ⟨by simp, by decide, ?_⟩
  obtain ⟨st, hst, hmd, _, _⟩ := (drawdown_law 2024
    [⟨"2024-01-01", 100000⟩, ⟨"2024-01-02", 110000⟩, ⟨"2024-01-03", 99000⟩]
    (by simp) (by decide)).2
  exact ⟨st, hst, hmd⟩

/-- Modelled from the spec: the population variance of the daily returns —
mean of squared deviations from the mean, dividing by n, not n - 1 (for the
empty list both divisions by zero give 0). -/
def specPopVariance (l : List ℚ) : ℚ :=
  (l.map (fun x => (x - l.sum / (l.length : ℚ)) ^ 2)).sum / (l.length : ℚ)

/-- Modelled from the spec: the population standard deviation. -/
noncomputable def specPopStd (l : List ℚ) : ℝ :=
  Real.sqrt ((specPopVariance l : ℚ) : ℝ)

theorem varQ_eq_specPopVariance (l : List ℚ) : varQ l = specPopVariance l := by
  rcases eq_or_ne l [] with rfl | hl
  · simp [varQ, meanQ, specPopVariance]
  · have hn : l.length ≠ 0 := fun hc => hl (List.length_eq_zero.mp hc)
    unfold varQ meanQ specPopVariance
    simp only [List.length_map, if_neg hn]

theorem sum_all_eq (l : List ℚ) (c : ℚ) (h : ∀ x ∈ l, x = c) : l.sum = l.length * c := by
  induction l with
  | nil => simp
  | cons x xs ih =>
    simp only [List.sum_cons, List.length_cons]
    rw [h x (by simp), ih (fun y hy => h y (by simp [hy]))]
    push_cast
    ring

theorem meanQ_eq_zero_of_sum (arr : List ℚ) (h : arr.sum = 0) : meanQ arr = 0 := by
  unfold meanQ
  rw [h]
  simp

theorem varQ_all_eq (l : List ℚ) (c : ℚ) (h : ∀ x ∈ l, x = c) : varQ l = 0 := by
  rcases eq_or_ne l [] with rfl | hl
  · simp [varQ, meanQ]
  · have hn : l.length ≠ 0 := fun hc => hl (List.length_eq_zero.mp hc)
    have hnQ : (l.length : ℚ) ≠ 0 := Nat.cast_ne_zero.mpr hn
    have hmean : meanQ l = c := by
      unfold meanQ
      rw [if_neg hn, sum_all_eq l c h]
      field_simp
    have hsum : (l.map (fun x => (x - meanQ l) ^ 2)).sum = 0 := by
      have hz := sum_all_eq (l.map (fun x => (x - meanQ l) ^ 2)) 0 ?_
      · rw [hz]
        ring
      · intro x hx
        rcases List.mem_map.mp hx with ⟨a, ha, rfl⟩
        rw [hmean, h a ha]
        ring
    unfold varQ
    exact meanQ_eq_zero_of_sum _ hsum

/-- C7: for a non-empty equity series the reported annual_vol equals the
population standard deviation of the daily returns (excluding the synthetic
index-0 zero) times sqrt 252; the Sharpe ratio is (mean daily return * 252)
divided by annual_vol when annual_vol is strictly positive and 0 otherwise;
in particular it is 0 whenever all daily returns are equal. -/
theorem sharpe_vol_stats (y : Nat) (series : List EquityPoint) (h : series ≠ []) :
    ∃ st, (computePerformance y series).stats = some st ∧
      st.annual_vol = specPopStd (retsOf (sortByDate series)) * Real.sqrt 252 ∧
      retsOf (sortByDate series) =
        ((computePerformance y series).returns.drop 1).map (fun r => r.ret) ∧
      (0 < st.annual_vol →
        st.sharpe = ((meanQ (retsOf (sortByDate series)) : ℚ) : ℝ) * 252 / st.annual_vol) ∧
      (¬ 0 < st.annual_vol → st.sharpe = 0) ∧
      (∀ c : ℚ, (∀ x ∈ retsOf (sortByDate series), x = c) → st.sharpe = 0) := by
  unfold computePerformance
  rw [if_neg h]
  unfold computeFromSorted
  refine ⟨_, rfl, ?_, rfl, ?_, ?_, ?_⟩
  · show volAnnOf (sortByDate series) = _
    unfold volAnnOf stdR specPopStd
    rw [varQ_eq_specPopVariance]
  · intro hv
    have hv2 : 0 < volAnnOf (sortByDate series) := hv
    show sharpeOf (sortByDate series) = _
    unfold sharpeOf
    rw [if_pos hv2]
  · intro hv
    have hv2 : ¬ 0 < volAnnOf (sortByDate series) := hv
    show sharpeOf (sortByDate series) = 0
    unfold sharpeOf
    rw [if_neg hv2]
  · intro c hc
    have hvza : varQ (retsOf (sortByDate series)) = 0 := varQ_all_eq _ c hc
    have hva : volAnnOf (sortByDate series) = 0 := by
      unfold volAnnOf stdR
      rw [hvza]
      simp
    show sharpeOf (sortByDate series) = 0
    unfold sharpeOf
    rw [if_neg (by rw [hva]; exact lt_irrefl 0)]

theorem sharpe_vol_stats_witness :
    ([⟨"2024-01-01", 100⟩] : List EquityPoint) ≠ [] ∧
    ∃ st, (computePerformance 2024 [⟨"2024-01-01", 100⟩]).stats = some st ∧
      st.sharpe = 0 := by
  refine ⟨by simp, ?_⟩
  obtain ⟨st, hst, _, _, _, _, hdeg⟩ :=
    sharpe_vol_stats 2024 [⟨"2024-01-01", 100⟩] (by simp)
  refine ⟨st, hst, hdeg 0 ?_⟩
  intro x hx
  have hempty : retsOf (sortByDate [(⟨"2024-01-01", 100⟩ : EquityPoint)]) = [] := by rfl
  rw [hempty] at hx
  cases hx
